import Mathlib

/-!
Verification development for the dependency-graph engine of
`deps_visualizer.py`.  The Python functions are embedded shallowly:

* `build_dependency_graph_dfs`  — the iterative DFS graph builder
  (source lines 153–192), modelled as a small-step state machine
  (`BuildState`, `step`, `run`) driven by an explicit fuel that is
  proved sufficient for the loop to drain its work stack.
* `build_reverse_dependency_graph` — the reverse-dependency scan
  (source lines 195–205).
* `print_graph` / `print_dependencies` — the ASCII tree renderer
  (source lines 208–229), with fuel for the recursion.
* `generate_mermaid_code` — the Mermaid diagram text generator
  (source lines 232–261).
* `edge_listing` — the flat edge listing printed by `main`
  (source lines 452–457).
* `dictGet` — Python's `dict.get(key, [])` used by `get_deps`
  (source line 435–436) and by `graph.get(pkg, [])` in `print_graph`.

Adjacency sources are association lists `List (String × List String)`
with distinct keys, matching the Python dictionaries built by
`load_test_repo` / `parse_apkindex_to_dict`.
-/

/-- Python `d.get(k, [])` on an association list with distinct keys:
the dependency lookup used by `get_deps` in `main` and by
`graph.get(pkg, [])` in `print_graph`. -/
def dictGet (d : List (String × List String)) (k : String) : List String :=
  match d.find? (fun p => p.1 == k) with
  | some p => p.2
  | none => []

/-- The mutable state of the `while stack:` loop of
`build_dependency_graph_dfs`.  The top of the Python list-stack is the
head of the `stack` field here. -/
structure BuildState where
  graph : List (String × List String)
  visited : List String
  stack : List (String × Bool)
  in_stack : List String
  has_cycle : Bool

/-- One iteration of the `while stack:` loop body of
`build_dependency_graph_dfs` (source lines 164–190).  A `true` phase
flag is Python's `processed=True` marker. -/
def step (adj : String → List String) (s : BuildState) : BuildState :=
  match s.stack with
  | [] => s
  | (node, processed) :: rest =>
    if processed then
      { s with stack := rest, in_stack := s.in_stack.erase node }
    else if node ∈ s.visited then
      { s with stack := rest }
    else if node ∈ s.in_stack then
      { s with stack := rest, has_cycle := true }
    else
      { graph := s.graph ++ [(node, adj node)],
        visited := node :: s.visited,
        stack := (adj node).map (fun d => (d, false)) ++ (node, true) :: rest,
        in_stack := node :: s.in_stack,
        has_cycle := s.has_cycle }

/-- Run up to `n` iterations of the loop, stopping when the work stack
is empty (the loop guard `while stack:`). -/
def run (adj : String → List String) : Nat → BuildState → BuildState
  | 0, s => s
  | n + 1, s => if s.stack.isEmpty then s else run adj n (step adj s)

/-- The loop state just before the first iteration of
`build_dependency_graph_dfs` (source lines 158–162). -/
def initState (root : String) : BuildState :=
  { graph := [], visited := [], stack := [(root, false)],
    in_stack := [], has_cycle := false }

/-- Every node the traversal can ever push: the root plus every
identifier occurring in some dependency list of the repository. -/
def univList (root : String) (repo : List (String × List String)) : List String :=
  root :: repo.flatMap (fun p => p.2)

/-- An upper bound on the length of any dependency list of the
repository. -/
def depBound (repo : List (String × List String)) : Nat :=
  repo.foldr (fun p m => Nat.max p.2.length m) 0

/-- Fuel that provably suffices for the DFS loop to drain its stack. -/
def buildFuel (root : String) (repo : List (String × List String)) : Nat :=
  (univList root repo).dedup.length * (2 + depBound repo) + 1

/-- The final loop state of `build_dependency_graph_dfs`. -/
def buildState (root : String) (repo : List (String × List String)) : BuildState :=
  run (dictGet repo) (buildFuel root repo) (initState root)

/-- `build_dependency_graph_dfs(start_package, get_deps)` where
`get_deps(pkg)` is `repo.get(pkg, [])` (source lines 153–192 together
with `get_deps` at 435–436): returns the pair `(graph, has_cycle)`. -/
def build_dependency_graph_dfs (start_package : String)
    (repo : List (String × List String)) :
    List (String × List String) × Bool :=
  ((buildState start_package repo).graph, (buildState start_package repo).has_cycle)

/-- `build_reverse_dependency_graph(target_package, repo_data)`
(source lines 195–205): the packages whose dependency list contains the
target, in repository iteration order. -/
def build_reverse_dependency_graph (target_package : String)
    (repo_data : List (String × List String)) : List String :=
  (repo_data.filter (fun p => decide (target_package ∈ p.2))).map Prod.fst

/-- The flat edge listing printed by `main` (source lines 452–457): one
line per graph entry, `pkg -> dep1, dep2, ...` or the no-dependency
marker. -/
def edge_listing (graph : List (String × List String)) : List String :=
  graph.map (fun p =>
    if p.2.isEmpty then p.1 ++ " -> (нет зависимостей)"
    else p.1 ++ " -> " ++ String.intercalate ", " p.2)

/-- Collect the results of an option-valued rendering function over a
list, concatenating them; `none` propagates (fuel exhaustion). -/
def optMapJoin {α β : Type} (f : α → Option (List β)) : List α → Option (List β)
  | [] => some []
  | a :: as =>
    match f a, optMapJoin f as with
    | some bs, some rest => some (bs ++ rest)
    | _, _ => none

/-- The recursive helper `print_dependencies(pkg, indent, visited)` of
`print_graph` (source lines 211–226), producing the printed lines.  The
per-branch `visited.copy()` of the Python code is the persistent list
`pkg :: visited` passed to each child.  `fuel` bounds the recursion
depth; `none` means the fuel ran out. -/
def print_dependencies (g : List (String × List String)) :
    Nat → String → String → List String → Option (List String)
  | 0, _, _, _ => none
  | fuel + 1, pkg, indent, visited =>
    if pkg ∈ visited then
      some [indent ++ "└── " ++ pkg ++ " (цикл)"]
    else
      let deps := dictGet g pkg
      match optMapJoin (fun p =>
          print_dependencies g fuel p.2
            (indent ++ (if p.1 = deps.length - 1 then "    " else "│   "))
            (pkg :: visited)) deps.enum with
      | some rest => some ((indent ++ "└── " ++ pkg) :: rest)
      | none => none

/-- The distinct identifiers appearing in a graph, as keys or inside
dependency lists. -/
def nodesOf (g : List (String × List String)) : List String :=
  (g.flatMap (fun p => p.1 :: p.2)).dedup

/-- `print_graph(graph, start_package)` (source lines 208–229): the
header line followed by the ASCII tree.  The fuel `(nodesOf g).length + 1`
is proved sufficient below, so the `getD` default is never taken. -/
def print_graph (g : List (String × List String)) (start_package : String) :
    List String :=
  ("Граф зависимостей для пакета " ++ start_package ++ ":") ::
    (print_dependencies g ((nodesOf g).length + 1) start_package "" []).getD []

/-- The box-drawing connector written immediately before a node name on
a rendered tree line. -/
def connectorOf (line name : String) : String :=
  (line.dropRight name.length).takeRight 4

/-- The contents of the Python set `nodes` in `generate_mermaid_code`
(source lines 239–243): every distinct id appearing as a key or as a
dependency value. -/
def collectNodes (g : List (String × List String)) : List String :=
  (g.flatMap (fun p => p.1 :: p.2)).dedup

/-- The contents of the Python set `edges` in `generate_mermaid_code`
(source lines 253–256): every distinct (package, dependency) pair. -/
def collectEdges (g : List (String × List String)) : List (String × String) :=
  (g.flatMap (fun p => p.2.map (fun d => (p.1, d)))).dedup

/-- Python's lexicographic order on string pairs, used by
`sorted(edges)`. -/
def edgeLe (a b : String × String) : Prop :=
  a.1 < b.1 ∨ (a.1 = b.1 ∧ a.2 ≤ b.2)

instance : DecidableRel edgeLe := fun a b =>
  inferInstanceAs (Decidable (a.1 < b.1 ∨ (a.1 = b.1 ∧ a.2 ≤ b.2)))

/-- `generate_mermaid_code(dependency_graph, start_package)` (source
lines 232–261).  The `if node == start_package` test of the source is
kept verbatim even though both branches emit the same line. -/
def generate_mermaid_code (dependency_graph : List (String × List String))
    (start_package : String) : String :=
  let sortedNodes := List.insertionSort (fun a b : String => a ≤ b)
    (collectNodes dependency_graph)
  let nodeLines := sortedNodes.map (fun node =>
    if node = start_package then "    " ++ node ++ "[" ++ node ++ "]"
    else "    " ++ node ++ "[" ++ node ++ "]")
  let sortedEdges := List.insertionSort edgeLe (collectEdges dependency_graph)
  let edgeLines := sortedEdges.map (fun e => "    " ++ e.1 ++ " --> " ++ e.2)
  String.intercalate "\n" ("graph TD" :: (nodeLines ++ edgeLines))

/-! ### Generic helper lemmas -/

/-- Once the work stack is empty the loop is inert. -/
lemma run_of_empty (adj : String → List String) (n : Nat) (s : BuildState)
    (h : s.stack = []) : run adj n s = s := by
  cases n with
  | zero => rfl
  | succ n => simp [run, h]

/-- A pointwise-stronger filter keeps at most as many elements. -/
lemma length_filter_mono {α : Type} (p q : α → Bool)
    (h : ∀ a, p a = true → q a = true) (L : List α) :
    (L.filter p).length ≤ (L.filter q).length := by
  induction L with
  | nil => simp
  | cons a L ih =>
    rw [List.filter_cons, List.filter_cons]
    cases hp : p a with
    | true => rw [h a hp]; simpa using Nat.succ_le_succ ih
    | false =>
      cases hq : q a
      · simpa using ih
      · simpa using Nat.le_succ_of_le ih

/-- Visiting one more element of `L` strictly shrinks the unvisited
remainder of `L`. -/
lemma length_filter_lt {α : Type} [DecidableEq α] (vis : List α) (u : α)
    (L : List α) (hu : u ∈ L) (hv : u ∉ vis) :
    (L.filter (fun x => decide (x ∉ u :: vis))).length <
      (L.filter (fun x => decide (x ∉ vis))).length := by
  induction L with
  | nil => cases hu
  | cons a L ih =>
    rw [List.filter_cons, List.filter_cons]
    by_cases ha : a = u
    · subst ha
      have h1 : (decide (a ∉ a :: vis)) = false := by simp
      have h2 : (decide (a ∉ vis)) = true := by simpa using hv
      rw [h1, h2]
      have hmono := length_filter_mono
        (fun x => decide (x ∉ a :: vis)) (fun x => decide (x ∉ vis))
        (by intro x hx; simp only [decide_eq_true_eq] at hx ⊢
            exact fun hmem => hx (List.mem_cons_of_mem _ hmem)) L
      simpa using Nat.lt_succ_of_le hmono
    · have hu' : u ∈ L := by
        rcases List.mem_cons.mp hu with h | h
        · exact absurd h.symm ha
        · exact h
      by_cases hav : a ∈ vis
      · have h1 : (decide (a ∉ u :: vis)) = false := by
          simp [List.mem_cons, hav]
        have h2 : (decide (a ∉ vis)) = false := by simp [hav]
        rw [h1, h2]
        simpa using ih hu'
      · have h1 : (decide (a ∉ u :: vis)) = true := by
          simp [List.mem_cons, ha, hav]
        have h2 : (decide (a ∉ vis)) = true := by simp [hav]
        rw [h1, h2]
        simpa using Nat.succ_lt_succ (ih hu')

/-- Any entry of the repository respects the dependency-length bound. -/
lemma mem_depBound (repo : List (String × List String))
    (p : String × List String) (hp : p ∈ repo) : p.2.length ≤ depBound repo := by
  induction repo with
  | nil => cases hp
  | cons q repo ih =>
    have hq : depBound (q :: repo) = Nat.max q.2.length (depBound repo) := rfl
    rcases List.mem_cons.mp hp with h | h
    · subst h; rw [hq]; exact Nat.le_max_left _ _
    · rw [hq]; exact Nat.le_trans (ih h) (Nat.le_max_right _ _)

/-- The dependency lookup respects the dependency-length bound. -/
lemma dictGet_length_le (repo : List (String × List String)) (u : String) :
    (dictGet repo u).length ≤ depBound repo := by
  unfold dictGet
  cases hf : repo.find? (fun p => p.1 == u) with
  | none => simp
  | some p => exact mem_depBound repo p (List.mem_of_find?_eq_some hf)

/-- Every identifier a lookup can return lies in the node universe. -/
lemma dictGet_mem_univ (root : String) (repo : List (String × List String))
    (u v : String) (hv : v ∈ dictGet repo u) : v ∈ univList root repo := by
  unfold dictGet at hv
  cases hf : repo.find? (fun p => p.1 == u) with
  | none => rw [hf] at hv; cases hv
  | some p =>
    rw [hf] at hv
    have hp : p ∈ repo := List.mem_of_find?_eq_some hf
    exact List.mem_cons_of_mem _ (List.mem_flatMap.mpr ⟨p, hp, hv⟩)

/-- How many elements of the universe `U` are still unvisited. -/
def remaining (U vis : List String) : Nat :=
  (U.dedup.filter (fun x => decide (x ∉ vis))).length

/-- Loop measure: unvisited nodes weighted by the maximal possible
stack growth of one expansion, plus the current stack height. -/
def meas (U : List String) (D : Nat) (s : BuildState) : Nat :=
  remaining U s.visited * (2 + D) + s.stack.length

/-- Reachability along dependency edges, from the root. -/
inductive Reaches (adj : String → List String) (root : String) : String → Prop
  | refl : Reaches adj root root
  | step (u v : String) : Reaches adj root u → v ∈ adj u → Reaches adj root v

/-- Equation: an empty stack leaves the state unchanged. -/
lemma step_empty (adj : String → List String) (s : BuildState)
    (h : s.stack = []) : step adj s = s := by
  unfold step; rw [h]

/-- Equation: the `processed` phase pops the node off the open path. -/
lemma step_exit (adj : String → List String) (s : BuildState) (node : String)
    (rest : List (String × Bool)) (h : s.stack = (node, true) :: rest) :
    step adj s = { s with stack := rest, in_stack := s.in_stack.erase node } := by
  unfold step; rw [h]; rfl

/-- Equation: an already-visited node is skipped. -/
lemma step_skip (adj : String → List String) (s : BuildState) (node : String)
    (rest : List (String × Bool)) (h : s.stack = (node, false) :: rest)
    (hv : node ∈ s.visited) :
    step adj s = { s with stack := rest } := by
  unfold step; rw [h]; simp [hv]

/-- Equation: a fresh node is expanded. -/
lemma step_expand (adj : String → List String) (s : BuildState) (node : String)
    (rest : List (String × Bool)) (h : s.stack = (node, false) :: rest)
    (hv : node ∉ s.visited) (hi : node ∉ s.in_stack) :
    step adj s =
      { graph := s.graph ++ [(node, adj node)],
        visited := node :: s.visited,
        stack := (adj node).map (fun d => (d, false)) ++ (node, true) :: rest,
        in_stack := node :: s.in_stack,
        has_cycle := s.has_cycle } := by
  unfold step; rw [h]; simp [hv, hi]

/-- The loop invariant of `build_dependency_graph_dfs`: the open path
is contained in the visited set (so the cycle branch is dead and the
flag stays `false`), the graph keys are the visited nodes in insertion
order, stack entries stay inside the universe `U` and are reachable,
and every dependency of a visited node is visited or still pending. -/
structure LoopInv (adj : String → List String) (root : String) (U : List String)
    (s : BuildState) : Prop where
  instack_sub : ∀ u, u ∈ s.in_stack → u ∈ s.visited
  no_cycle : s.has_cycle = false
  keys_eq : s.graph.map Prod.fst = s.visited.reverse
  visited_nodup : s.visited.Nodup
  stack_univ : ∀ u b, (u, b) ∈ s.stack → u ∈ U
  stack_reach : ∀ u b, (u, b) ∈ s.stack → Reaches adj root u
  visited_reach : ∀ u, u ∈ s.visited → Reaches adj root u
  closed : ∀ u, u ∈ s.visited → ∀ v, v ∈ adj u →
    v ∈ s.visited ∨ (v, false) ∈ s.stack
  root_in : root ∈ s.visited ∨ (root, false) ∈ s.stack

/-- The invariant holds before the first iteration. -/
lemma inv_init (adj : String → List String) (root : String) (U : List String)
    (hroot : root ∈ U) : LoopInv adj root U (initState root) := by
  refine ⟨?_, rfl, rfl, List.nodup_nil, ?_, ?_, ?_, ?_, ?_⟩
  · intro u hu; cases hu
  · intro u b hu
    have h := List.mem_singleton.mp hu
    rw [show u = root from congrArg Prod.fst h]; exact hroot
  · intro u b hu
    have h := List.mem_singleton.mp hu
    rw [show u = root from congrArg Prod.fst h]; exact Reaches.refl
  · intro u hu; cases hu
  · intro u hu; cases hu
  · exact Or.inr (List.mem_singleton.mpr rfl)

/-- One loop iteration preserves the invariant. -/
lemma inv_step (adj : String → List String) (root : String) (U : List String)
    (hadj : ∀ u v, v ∈ adj u → v ∈ U)
    (s : BuildState) (hs : LoopInv adj root U s) : LoopInv adj root U (step adj s) := by
  rcases hstack : s.stack with _ | ⟨⟨node, processed⟩, rest⟩
  · rw [step_empty adj s hstack]; exact hs
  · have hmem : ∀ u b, (u, b) ∈ rest → (u, b) ∈ s.stack := by
      intro u b hu; rw [hstack]; exact List.mem_cons_of_mem _ hu
    have hnodetop : (node, processed) ∈ s.stack := by
      rw [hstack]; exact List.mem_cons_self _ _
    cases processed with
    | true =>
      rw [step_exit adj s node rest hstack]
      refine ⟨?_, hs.no_cycle, hs.keys_eq, hs.visited_nodup, ?_, ?_,
        hs.visited_reach, ?_, ?_⟩
      · intro u hu; exact hs.instack_sub u (List.mem_of_mem_erase hu)
      · intro u b hu; exact hs.stack_univ u b (hmem u b hu)
      · intro u b hu; exact hs.stack_reach u b (hmem u b hu)
      · intro u hu v hv
        rcases hs.closed u hu v hv with h | h
        · exact Or.inl h
        · rw [hstack] at h
          rcases List.mem_cons.mp h with h | h
          · cases h
          · exact Or.inr h
      · rcases hs.root_in with h | h
        · exact Or.inl h
        · rw [hstack] at h
          rcases List.mem_cons.mp h with h | h
          · cases h
          · exact Or.inr h
    | false =>
      by_cases hv : node ∈ s.visited
      · rw [step_skip adj s node rest hstack hv]
        refine ⟨hs.instack_sub, hs.no_cycle, hs.keys_eq, hs.visited_nodup,
          ?_, ?_, hs.visited_reach, ?_, ?_⟩
        · intro u b hu; exact hs.stack_univ u b (hmem u b hu)
        · intro u b hu; exact hs.stack_reach u b (hmem u b hu)
        · intro u hu w hw
          rcases hs.closed u hu w hw with h | h
          · exact Or.inl h
          · rw [hstack] at h
            rcases List.mem_cons.mp h with h | h
            · have hwn : w = node := congrArg Prod.fst h
              exact Or.inl (hwn ▸ hv)
            · exact Or.inr h
        · rcases hs.root_in with h | h
          · exact Or.inl h
          · rw [hstack] at h
            rcases List.mem_cons.mp h with h | h
            · have hrn : root = node := congrArg Prod.fst h
              exact Or.inl (hrn ▸ hv)
            · exact Or.inr h
      · have hin : node ∉ s.in_stack := fun h => hv (hs.instack_sub node h)
        rw [step_expand adj s node rest hstack hv hin]
        have hreach : Reaches adj root node := hs.stack_reach node false hnodetop
        refine ⟨?_, hs.no_cycle, ?_, ?_, ?_, ?_, ?_, ?_, ?_⟩
        · intro u hu
          rcases List.mem_cons.mp hu with h | h
          · exact h ▸ List.mem_cons_self _ _
          · exact List.mem_cons_of_mem _ (hs.instack_sub u h)
        · show (s.graph ++ [(node, adj node)]).map Prod.fst = (node :: s.visited).reverse
          rw [List.map_append, hs.keys_eq, List.reverse_cons]
          rfl
        · exact List.nodup_cons.mpr ⟨hv, hs.visited_nodup⟩
        · intro u b hu
          rcases List.mem_append.mp hu with h | h
          · rcases List.mem_map.mp h with ⟨d, hd, hdu⟩
            have hdeq : d = u := congrArg Prod.fst hdu
            exact hadj node u (hdeq ▸ hd)
          · rcases List.mem_cons.mp h with h | h
            · have hun : u = node := congrArg Prod.fst h
              exact hun ▸ hs.stack_univ node false hnodetop
            · exact hs.stack_univ u b (hmem u b h)
        · intro u b hu
          rcases List.mem_append.mp hu with h | h
          · rcases List.mem_map.mp h with ⟨d, hd, hdu⟩
            have hdeq : d = u := congrArg Prod.fst hdu
            exact Reaches.step node u hreach (hdeq ▸ hd)
          · rcases List.mem_cons.mp h with h | h
            · have hun : u = node := congrArg Prod.fst h
              exact hun ▸ hreach
            · exact hs.stack_reach u b (hmem u b h)
        · intro u hu
          rcases List.mem_cons.mp hu with h | h
          · exact h ▸ hreach
          · exact hs.visited_reach u h
        · intro u hu w hw
          rcases List.mem_cons.mp hu with h | h
          · subst h
            exact Or.inr (List.mem_append_left _ (List.mem_map.mpr ⟨w, hw, rfl⟩))
          · rcases hs.closed u h w hw with h2 | h2
            · exact Or.inl (List.mem_cons_of_mem _ h2)
            · rw [hstack] at h2
              rcases List.mem_cons.mp h2 with h2 | h2
              · have hwn : w = node := congrArg Prod.fst h2
                exact Or.inl (hwn ▸ List.mem_cons_self _ _)
              · exact Or.inr (List.mem_append_right _ (List.mem_cons_of_mem _ h2))
        · rcases hs.root_in with h | h
          · exact Or.inl (List.mem_cons_of_mem _ h)
          · rw [hstack] at h
            rcases List.mem_cons.mp h with h | h
            · have hrn : root = node := congrArg Prod.fst h
              exact Or.inl (hrn ▸ List.mem_cons_self _ _)
            · exact Or.inr (List.mem_append_right _ (List.mem_cons_of_mem _ h))

/-- The invariant holds after any number of iterations. -/
lemma inv_run (adj : String → List String) (root : String) (U : List String)
    (hadj : ∀ u v, v ∈ adj u → v ∈ U) (n : Nat) (s : BuildState)
    (hs : LoopInv adj root U s) : LoopInv adj root U (run adj n s) := by
  induction n generalizing s with
  | zero => exact hs
  | succ n ih =>
    rw [run]
    by_cases h : s.stack.isEmpty
    · rw [if_pos h]; exact hs
    · rw [if_neg h]; exact ih (step adj s) (inv_step adj root U hadj s hs)

/-- With fuel at least the loop measure, the work stack drains. -/
lemma run_drains (adj : String → List String) (root : String) (U : List String)
    (D : Nat) (hadj : ∀ u v, v ∈ adj u → v ∈ U)
    (hD : ∀ u, (adj u).length ≤ D) :
    ∀ n s, LoopInv adj root U s → meas U D s ≤ n → (run adj n s).stack = [] := by
  intro n
  induction n with
  | zero =>
    intro s _ hm
    simp only [meas] at hm
    have hlen : s.stack.length = 0 := by omega
    exact List.length_eq_zero.mp hlen
  | succ n ih =>
    intro s hs hm
    rcases hstack : s.stack with _ | ⟨⟨node, processed⟩, rest⟩
    · rw [run_of_empty adj (n + 1) s hstack]; exact hstack
    · have hne : s.stack.isEmpty = false := by rw [hstack]; rfl
      rw [run, if_neg (by rw [hne]; simp)]
      have hm2 : remaining U s.visited * (2 + D) + (rest.length + 1) ≤ n + 1 := by
        simp only [meas, hstack, List.length_cons] at hm
        exact hm
      refine ih (step adj s) (inv_step adj root U hadj s hs) ?_
      cases processed with
      | true =>
        rw [step_exit adj s node rest hstack]
        simp only [meas]
        omega
      | false =>
        by_cases hv : node ∈ s.visited
        · rw [step_skip adj s node rest hstack hv]
          simp only [meas]
          omega
        · have hin : node ∉ s.in_stack := fun h => hv (hs.instack_sub node h)
          rw [step_expand adj s node rest hstack hv hin]
          have hnodeU : node ∈ U := hs.stack_univ node false (by
            rw [hstack]; exact List.mem_cons_self _ _)
          have hless : remaining U (node :: s.visited) + 1 ≤ remaining U s.visited :=
            length_filter_lt s.visited node U.dedup (List.mem_dedup.mpr hnodeU) hv
          have hprod : (remaining U (node :: s.visited) + 1) * (2 + D) ≤
              remaining U s.visited * (2 + D) :=
            Nat.mul_le_mul_right _ hless
          have hexpand : (remaining U (node :: s.visited) + 1) * (2 + D) =
              remaining U (node :: s.visited) * (2 + D) + 2 + D := by ring
          have hDn : (adj node).length ≤ D := hD node
          simp only [meas, List.length_append, List.length_map, List.length_cons]
          omega

/-- The invariant holds at the final state of the builder. -/
lemma buildState_inv (root : String) (repo : List (String × List String)) :
    LoopInv (dictGet repo) root (univList root repo) (buildState root repo) :=
  inv_run (dictGet repo) root (univList root repo)
    (fun u v hv => dictGet_mem_univ root repo u v hv)
    (buildFuel root repo) (initState root)
    (inv_init (dictGet repo) root (univList root repo) (List.mem_cons_self _ _))

/-- The initial measure is exactly the fuel the builder is given. -/
lemma meas_init (root : String) (repo : List (String × List String)) :
    meas (univList root repo) (depBound repo) (initState root) =
      buildFuel root repo := by
  simp only [meas, remaining, initState, buildFuel, List.length_cons,
    List.length_nil]
  have hfil : ((univList root repo).dedup.filter
      (fun x => decide (x ∉ ([] : List String)))) = (univList root repo).dedup :=
    List.filter_eq_self.mpr (fun a _ => by simp)
  rw [hfil]

/-- The builder's fuel suffices: the final work stack is empty. -/
lemma buildState_stack_empty (root : String) (repo : List (String × List String)) :
    (buildState root repo).stack = [] := by
  apply run_drains (dictGet repo) root (univList root repo) (depBound repo)
    (fun u v hv => dictGet_mem_univ root repo u v hv)
    (dictGet_length_le repo)
    (buildFuel root repo) (initState root)
    (inv_init (dictGet repo) root (univList root repo) (List.mem_cons_self _ _))
  exact Nat.le_of_eq (meas_init root repo)

/-- A node was visited by the finished builder iff it is reachable from
the root along dependency edges. -/
lemma buildState_visited_iff (root : String) (repo : List (String × List String))
    (u : String) :
    u ∈ (buildState root repo).visited ↔ Reaches (dictGet repo) root u := by
  constructor
  · exact (buildState_inv root repo).visited_reach u
  · intro h
    induction h with
    | refl =>
      rcases (buildState_inv root repo).root_in with h | h
      · exact h
      · rw [buildState_stack_empty root repo] at h; cases h
    | step a v ha hv ih =>
      rcases (buildState_inv root repo).closed a ih v hv with h | h
      · exact h
      · rw [buildState_stack_empty root repo] at h; cases h

/-! ### Claim theorems for the graph builder -/

/-- Scenario 1 adjacency of the specification. -/
def scenRepo : List (String × List String) :=
  [("A", ["B", "C"]), ("B", ["D"]), ("C", ["D", "E"]), ("D", []), ("E", ["B"])]

/-- A two-node dependency cycle: a genuine back-edge input. -/
def cycRepo : List (String × List String) :=
  [("A", ["B"]), ("B", ["A"])]

/-- Claim C1 (code evaluated at the failing input): on the adjacency
A→B, B→A the edge B→A points to A, which is still on the open
root-to-frontier path when that edge is traversed, yet
`build_dependency_graph_dfs` returns cycle flag `false` — the claimed
back-edge ⇒ `true` behaviour does not hold on the code. -/
theorem c1_back_edge_input_returns_false :
    build_dependency_graph_dfs ("A") cycRepo = (cycRepo, false) := by decide

/-- Claim C2: at every iteration of the traversal loop the set
`in_stack` is contained in `visited`, hence the cycle-detection branch
(reached only when a node is not in `visited` but in `in_stack`) is
unreachable and the returned cycle flag is `false` on every input. -/
theorem c2_in_stack_subset_visited_flag_always_false :
    ∀ (root : String) (repo : List (String × List String)) (n : Nat),
      (∀ u, u ∈ (run (dictGet repo) n (initState root)).in_stack →
        u ∈ (run (dictGet repo) n (initState root)).visited) ∧
      (run (dictGet repo) n (initState root)).has_cycle = false ∧
      (build_dependency_graph_dfs root repo).2 = false := by
  intro root repo n
  have hinv := inv_run (dictGet repo) root (univList root repo)
    (fun u v hv => dictGet_mem_univ root repo u v hv) n (initState root)
    (inv_init (dictGet repo) root (univList root repo) (List.mem_cons_self _ _))
  exact ⟨hinv.instack_sub, hinv.no_cycle, (buildState_inv root repo).no_cycle⟩

/-- Witness for C2 at a concrete input: after one iteration on the
self-loop repository the node on the open path is indeed visited. -/
theorem c2_in_stack_subset_visited_flag_always_false_witness :
    ("A" : String) ∈ (run (dictGet [(("A"), ["A"])]) 1 (initState ("A"))).visited :=
  (c2_in_stack_subset_visited_flag_always_false ("A") [(("A"), ["A"])] 1).1
    ("A") (by decide)

/-- Claim C3 counterexample: on the Scenario 1 adjacency with root A
the cycle flag returned by the code is not `true` (the adjacency has no
directed cycle: when edge E→B is traversed, B is already closed, not an
ancestor on the open path). -/
theorem c3_counterexample_flag_not_true :
    ¬ (build_dependency_graph_dfs ("A") scenRepo).2 = true := by decide

/-- Claim C3 (amended): on the Scenario 1 adjacency with root A the
builder returns cycle flag `false`; the graph has exactly the keys
A, B, C, D, E; it maps E to [B]; and the edge listing includes the line
`E -> B`. -/
theorem c3_scenario1_result :
    build_dependency_graph_dfs ("A") scenRepo =
      ([("A", ["B", "C"]), ("B", ["D"]), ("D", []), ("C", ["D", "E"]),
        ("E", ["B"])], false) ∧
    ((build_dependency_graph_dfs ("A") scenRepo).1.map Prod.fst).Perm
      ["A", "B", "C", "D", "E"] ∧
    dictGet (build_dependency_graph_dfs ("A") scenRepo).1 ("E") = ["B"] ∧
    "E -> B" ∈ edge_listing (build_dependency_graph_dfs ("A") scenRepo).1 := by
  exact ⟨by decide, by decide, by decide, by decide⟩

/-- Claim C8: the builder's work stack always empties, each node is a
key of the produced graph at most once, and the keys of the graph are
exactly the nodes reachable from the root along dependency edges. -/
theorem c8_terminates_keys_are_reachable_set :
    ∀ (root : String) (repo : List (String × List String)),
      (buildState root repo).stack = [] ∧
      ((build_dependency_graph_dfs root repo).1.map Prod.fst).Nodup ∧
      (∀ u, u ∈ (build_dependency_graph_dfs root repo).1.map Prod.fst ↔
        Reaches (dictGet repo) root u) := by
  intro root repo
  have hinv := buildState_inv root repo
  refine ⟨buildState_stack_empty root repo, ?_, ?_⟩
  · show ((buildState root repo).graph.map Prod.fst).Nodup
    rw [hinv.keys_eq]
    exact (List.nodup_reverse).mpr hinv.visited_nodup
  · intro u
    show u ∈ (buildState root repo).graph.map Prod.fst ↔ _
    rw [hinv.keys_eq, List.mem_reverse]
    exact buildState_visited_iff root repo u

/-- Claim C7: if the root has no entry in the adjacency source the
builder raises no error and returns the single-node graph mapping the
root to the empty list, with cycle flag `false`. -/
theorem c7_unknown_root_single_node_graph :
    ∀ (root : String) (repo : List (String × List String)),
      root ∉ repo.map Prod.fst →
      build_dependency_graph_dfs root repo = ([(root, [])], false) := by
  intro root repo hroot
  have hlookup : dictGet repo root = [] := by
    unfold dictGet
    have hfind : repo.find? (fun p => p.1 == root) = none := by
      apply List.find?_eq_none.mpr
      intro x hx
      simp only [beq_iff_eq]
      intro hx1
      exact hroot (List.mem_map.mpr ⟨x, hx, hx1⟩)
    rw [hfind]
  have hk : 1 ≤ (univList root repo).dedup.length := by
    apply List.length_pos.mpr
    intro hnil
    have hr : root ∈ (univList root repo).dedup :=
      List.mem_dedup.mpr (List.mem_cons_self _ _)
    rw [hnil] at hr; cases hr
  have h2 : 2 ≤ buildFuel root repo := by
    unfold buildFuel
    have hmul : 2 + depBound repo ≤
        (univList root repo).dedup.length * (2 + depBound repo) :=
      Nat.le_mul_of_pos_left _ hk
    omega
  obtain ⟨c, hc⟩ := Nat.exists_eq_add_of_le h2
  have hc2 : buildFuel root repo = (c + 1) + 1 := by omega
  unfold build_dependency_graph_dfs buildState
  rw [hc2]
  have hinit : (initState root).stack = (root, false) :: [] := rfl
  rw [run, if_neg (by rw [hinit]; simp)]
  rw [step_expand (dictGet repo) (initState root) root [] hinit
    (by intro h; cases h) (by intro h; cases h)]
  rw [hlookup]
  simp only [List.map_nil, List.nil_append]
  rw [run, if_neg (by simp)]
  rw [step_exit (dictGet repo) _ root [] rfl]
  simp only [List.erase_cons_head]
  rw [run_of_empty _ c _ rfl]
  simp [initState]

/-- Witness for C7: for the empty adjacency and root X the result is
the single-node graph with cycle flag `false`. -/
theorem c7_unknown_root_single_node_graph_witness :
    ("X" : String) ∉ ([] : List (String × List String)).map Prod.fst ∧
    build_dependency_graph_dfs ("X") [] = ([(("X"), [])], false) :=
  ⟨by decide, c7_unknown_root_single_node_graph ("X") [] (by decide)⟩

/-! ### Reverse dependencies (C4) -/

/-- Modelled from the spec: the nodes "reached by repeatedly walking
who depends on this" outward from the target (spec §4.2 step 2 and the
ReverseGraph result description); no transitive walk exists in the
source, whose `build_reverse_dependency_graph` only scans for direct
dependents, so the walk is expressed through that scan. -/
inductive RevReaches (repo : List (String × List String)) (target : String) :
    String → Prop
  | refl : RevReaches repo target target
  | step (u v : String) : RevReaches repo target u →
      v ∈ build_reverse_dependency_graph u repo → RevReaches repo target v

/-- A repository where the reverse-dependency closure of A is strictly
larger than the direct dependents of A. -/
def revRepo : List (String × List String) :=
  [("B", ["A"]), ("C", ["B"])]

/-- Claim C4 counterexample: C is reached from target A by repeatedly
walking "who depends on this" (A ← B ← C), yet the value returned by
`build_reverse_dependency_graph` for A is the flat list ["B"]: it is
not a mapping over the reached nodes and contains nothing about C. -/
theorem c4_counterexample_no_transitive_closure :
    RevReaches revRepo ("A") ("C") ∧
    build_reverse_dependency_graph ("A") revRepo = ["B"] ∧
    ("C") ∉ build_reverse_dependency_graph ("A") revRepo := by
  refine ⟨?_, by decide, by decide⟩
  have h1 : RevReaches revRepo ("A") ("B") :=
    RevReaches.step ("A") ("B") RevReaches.refl (by decide)
  exact RevReaches.step ("B") ("C") h1 (by decide)

/-- Claim C4 (amended): the reverse-dependency operation returns the
flat list of the packages that directly name the target in their
dependency list, in repository iteration order; no transitive walk is
performed and no per-node mapping is produced. -/
theorem c4_returns_direct_dependents_only :
    ∀ (target : String) (repo : List (String × List String)) (p : String),
      p ∈ build_reverse_dependency_graph target repo ↔
        ∃ deps, (p, deps) ∈ repo ∧ target ∈ deps := by
  intro target repo p
  unfold build_reverse_dependency_graph
  simp only [List.mem_map, List.mem_filter, decide_eq_true_eq]
  constructor
  · rintro ⟨q, ⟨hq, ht⟩, hqp⟩
    refine ⟨q.2, ?_, ht⟩
    rw [← hqp]
    exact hq
  · rintro ⟨deps, hmem, ht⟩
    exact ⟨(p, deps), ⟨hmem, ht⟩, rfl⟩

/-- Witness for C4 (amended) at a concrete input: B is reported for
target A in `revRepo` because B's dependency list names A. -/
theorem c4_returns_direct_dependents_only_witness :
    ∃ deps, (("B" : String), deps) ∈ revRepo ∧ ("A" : String) ∈ deps :=
  (c4_returns_direct_dependents_only ("A") revRepo ("B")).mp (by decide)

/-! ### ASCII tree rendering (C5, C10) -/

/-- Membership in a joined `optMapJoin` result comes from one of the
collected pieces. -/
lemma optMapJoin_mem {α β : Type} (f : α → Option (List β)) (l : List α)
    (bs : List β) (h : optMapJoin f l = some bs) (b : β) (hb : b ∈ bs) :
    ∃ a, a ∈ l ∧ ∃ cs, f a = some cs ∧ b ∈ cs := by
  induction l generalizing bs with
  | nil =>
    rw [optMapJoin] at h
    injection h with h
    rw [← h] at hb
    cases hb
  | cons a as ih =>
    rw [optMapJoin] at h
    cases hfa : f a with
    | none => rw [hfa] at h; cases h
    | some cs =>
      cases hrest : optMapJoin f as with
      | none => rw [hfa, hrest] at h; cases h
      | some ds =>
        rw [hfa, hrest] at h
        injection h with h
        rw [← h] at hb
        rcases List.mem_append.mp hb with hb | hb
        · exact ⟨a, List.mem_cons_self _ _, cs, hfa, hb⟩
        · obtain ⟨x, hx, cs2, h1, h2⟩ := ih ds hrest hb
          exact ⟨x, List.mem_cons_of_mem _ hx, cs2, h1, h2⟩

/-- `optMapJoin` succeeds when every piece succeeds. -/
lemma optMapJoin_isSome {α β : Type} (f : α → Option (List β)) (l : List α)
    (h : ∀ a, a ∈ l → (f a).isSome = true) : (optMapJoin f l).isSome = true := by
  induction l with
  | nil => rfl
  | cons a as ih =>
    rw [optMapJoin]
    have ha := h a (List.mem_cons_self _ _)
    cases hfa : f a with
    | none => rw [hfa] at ha; cases ha
    | some cs =>
      have hrest := ih (fun x hx => h x (List.mem_cons_of_mem _ hx))
      cases hr : optMapJoin f as with
      | none => rw [hr] at hrest; cases hrest
      | some ds => rfl

/-- A one-parent, two-children graph: B is an earlier child, C the
last child. -/
def treeRepo : List (String × List String) :=
  [("A", ["B", "C"])]

/-- Claim C5 counterexample: in the rendered tree for A→(B, C) the
connector written before the last child C equals the connector written
before the earlier child B — the corner glyph does not differ. -/
theorem c5_counterexample_same_corner_glyph :
    print_graph treeRepo ("A") =
      ["Граф зависимостей для пакета A:", "└── A", "│   └── B", "    └── C"] ∧
    connectorOf ("│   └── B") ("B") = connectorOf ("    └── C") ("C") := by
  exact ⟨by decide, by decide⟩

/-- Claim C5 (amended): every node line of the ASCII tree uses the one
corner glyph `└── ` regardless of child position; the last child
differs from earlier children only through the indentation continuation
applied to its subtree, as the concrete rendering of A→(B, C) shows
(`│   ` under the earlier child, spaces under the last). -/
theorem c5_same_glyph_indent_differs :
    (∀ (g : List (String × List String)) (fuel : Nat) (pkg indent : String)
      (visited : List String) (ls : List String),
      print_dependencies g fuel pkg indent visited = some ls →
      ∀ l, l ∈ ls → ∃ pre post, l = pre ++ "└── " ++ post) ∧
    print_graph treeRepo ("A") =
      ["Граф зависимостей для пакета A:", "└── A", "│   └── B", "    └── C"] := by
  constructor
  · intro g fuel
    induction fuel with
    | zero => intro pkg indent visited ls h; cases h
    | succ fuel ih =>
      intro pkg indent visited ls h
      rw [print_dependencies] at h
      by_cases hv : pkg ∈ visited
      · rw [if_pos hv] at h
        injection h with h
        intro l hl
        rw [← h] at hl
        rcases List.mem_singleton.mp hl with h2
        exact ⟨indent, pkg ++ " (цикл)", by rw [h2]; simp [String.append_assoc]⟩
      · rw [if_neg hv] at h
        simp only at h
        cases hj : optMapJoin (fun p =>
            print_dependencies g fuel p.2
              (indent ++ (if p.1 = (dictGet g pkg).length - 1 then "    " else "│   "))
              (pkg :: visited)) (dictGet g pkg).enum with
        | none => rw [hj] at h; cases h
        | some rest =>
          rw [hj] at h
          injection h with h
          intro l hl
          rw [← h] at hl
          rcases List.mem_cons.mp hl with h2 | h2
          · exact ⟨indent, pkg, by rw [h2]⟩
          · obtain ⟨a, _, cs, hcs, hlcs⟩ := optMapJoin_mem _ _ rest hj l h2
            exact ih a.2 _ (pkg :: visited) cs hcs l hlcs
  · decide

/-- Witness for C5 (amended): the line printed for the earlier child B
carries the `└── ` connector. -/
theorem c5_same_glyph_indent_differs_witness :
    ∃ pre post, ("│   └── B" : String) = pre ++ "└── " ++ post :=
  (c5_same_glyph_indent_differs).1 treeRepo 2 ("B") ("│   ") [("A" : String)]
    ["│   └── B"] (by decide) ("│   └── B") (by decide)

/-- A nonempty dependency lookup means the queried package is a key. -/
lemma dictGet_ne_nil_mem_keys (g : List (String × List String)) (pkg : String)
    (h : dictGet g pkg ≠ []) : pkg ∈ g.map Prod.fst := by
  unfold dictGet at h
  cases hf : g.find? (fun p => p.1 == pkg) with
  | none => rw [hf] at h; exact absurd rfl h
  | some p =>
    have hp : p ∈ g := List.mem_of_find?_eq_some hf
    have hpk := List.find?_some hf
    simp only [beq_iff_eq] at hpk
    exact List.mem_map.mpr ⟨p, hp, hpk⟩

/-- Graph keys are among the distinct nodes of the graph. -/
lemma keys_subset_nodesOf (g : List (String × List String)) (pkg : String)
    (h : pkg ∈ g.map Prod.fst) : pkg ∈ nodesOf g := by
  rcases List.mem_map.mp h with ⟨p, hp, hpk⟩
  exact List.mem_dedup.mpr
    (List.mem_flatMap.mpr ⟨p, hp, hpk ▸ List.mem_cons_self _ _⟩)

/-- Fuel exceeding the number of distinct still-unvisited packages
makes the tree renderer succeed. -/
lemma print_dependencies_isSome (g : List (String × List String)) :
    ∀ (fuel : Nat) (visited : List String) (pkg indent : String),
      ((nodesOf g).filter (fun x => decide (x ∉ visited))).length < fuel →
      (print_dependencies g fuel pkg indent visited).isSome = true := by
  intro fuel
  induction fuel with
  | zero => intro visited pkg indent h; exact absurd h (Nat.not_lt_zero _)
  | succ fuel ih =>
    intro visited pkg indent h
    rw [print_dependencies]
    by_cases hv : pkg ∈ visited
    · rw [if_pos hv]; rfl
    · rw [if_neg hv]
      simp only
      have hjoin : (optMapJoin (fun p =>
          print_dependencies g fuel p.2
            (indent ++ (if p.1 = (dictGet g pkg).length - 1 then "    " else "│   "))
            (pkg :: visited)) (dictGet g pkg).enum).isSome = true := by
        apply optMapJoin_isSome
        intro a ha
        apply ih
        have hne : dictGet g pkg ≠ [] := by
          intro hnil
          rw [hnil] at ha
          cases ha
        have hkey : pkg ∈ nodesOf g :=
          keys_subset_nodesOf g pkg (dictGet_ne_nil_mem_keys g pkg hne)
        have hlt := length_filter_lt visited pkg (nodesOf g) hkey hv
        omega
      cases hopt : optMapJoin (fun p =>
          print_dependencies g fuel p.2
            (indent ++ (if p.1 = (dictGet g pkg).length - 1 then "    " else "│   "))
            (pkg :: visited)) (dictGet g pkg).enum with
      | none => rw [hopt] at hjoin; cases hjoin
      | some rest => rfl

/-- Claim C10: the ASCII tree renderer terminates on every finite
graph, cyclic ones included: fuel equal to the number of distinct
packages plus one — the bound on the recursion depth along any branch —
always suffices, so `print_graph` never hits the fuel cutoff. -/
theorem c10_print_graph_terminates :
    ∀ (g : List (String × List String)) (pkg : String),
      (print_dependencies g ((nodesOf g).length + 1) pkg "" []).isSome = true := by
  intro g pkg
  apply print_dependencies_isSome
  have hle := List.length_filter_le
    (fun x => decide (x ∉ ([] : List String))) (nodesOf g)
  omega

/-- Claim C9: the Mermaid diagram text does not depend on the
`start_package` argument — both branches of the start-package test emit
the identical node line. -/
theorem c9_mermaid_independent_of_start :
    ∀ (g : List (String × List String)) (s1 s2 : String),
      generate_mermaid_code g s1 = generate_mermaid_code g s2 := by
  intro g s1 s2
  unfold generate_mermaid_code
  simp only [ite_self]

instance : IsTrans (String × String) edgeLe := by
  constructor
  intro a b c hab hbc
  rcases hab with h | ⟨he, h2⟩
  · rcases hbc with h3 | ⟨he3, _⟩
    · exact Or.inl (lt_trans h h3)
    · exact Or.inl (he3 ▸ h)
  · rcases hbc with h3 | ⟨he3, h4⟩
    · exact Or.inl (he ▸ h3)
    · exact Or.inr ⟨he.trans he3, le_trans h2 h4⟩

instance : IsTotal (String × String) edgeLe := by
  constructor
  intro a b
  rcases lt_trichotomy a.1 b.1 with h | h | h
  · exact Or.inl (Or.inl h)
  · rcases le_total a.2 b.2 with h2 | h2
    · exact Or.inl (Or.inr ⟨h, h2⟩)
    · exact Or.inr (Or.inr ⟨h.symm, h2⟩)
  · exact Or.inr (Or.inl h)

/-- Claim C6: the Mermaid diagram declares exactly one node for every
distinct identifier appearing as a key or as a value of the graph, in
lexicographic order; then exactly one edge statement per distinct
(package, dependency) pair, deduplicated and lexicographically ordered;
and the text is identical across repeated invocations. -/
theorem c6_mermaid_nodes_edges_sorted_dedup :
    ∀ (g : List (String × List String)) (s : String),
      (∀ x, x ∈ List.insertionSort (fun a b : String => a ≤ b) (collectNodes g) ↔
        ∃ p, p ∈ g ∧ (x = p.1 ∨ x ∈ p.2)) ∧
      (List.insertionSort (fun a b : String => a ≤ b) (collectNodes g)).Nodup ∧
      List.Sorted (fun a b : String => a ≤ b)
        (List.insertionSort (fun a b : String => a ≤ b) (collectNodes g)) ∧
      (∀ e : String × String,
        e ∈ List.insertionSort edgeLe (collectEdges g) ↔
          ∃ p, p ∈ g ∧ e.1 = p.1 ∧ e.2 ∈ p.2) ∧
      (List.insertionSort edgeLe (collectEdges g)).Nodup ∧
      List.Sorted edgeLe (List.insertionSort edgeLe (collectEdges g)) ∧
      generate_mermaid_code g s = String.intercalate "\n" ("graph TD" ::
        ((List.insertionSort (fun a b : String => a ≤ b) (collectNodes g)).map
          (fun node => "    " ++ node ++ "[" ++ node ++ "]") ++
         (List.insertionSort edgeLe (collectEdges g)).map
          (fun e => "    " ++ e.1 ++ " --> " ++ e.2))) ∧
      generate_mermaid_code g s = generate_mermaid_code g s := by
  intro g s
  refine ⟨?_, ?_, ?_, ?_, ?_, ?_, ?_, rfl⟩
  · intro x
    rw [(List.perm_insertionSort (fun a b : String => a ≤ b)
      (collectNodes g)).mem_iff]
    unfold collectNodes
    rw [List.mem_dedup, List.mem_flatMap]
    constructor
    · rintro ⟨p, hp, hx⟩
      rcases List.mem_cons.mp hx with h | h
      · exact ⟨p, hp, Or.inl h⟩
      · exact ⟨p, hp, Or.inr h⟩
    · rintro ⟨p, hp, h | h⟩
      · exact ⟨p, hp, h ▸ List.mem_cons_self _ _⟩
      · exact ⟨p, hp, List.mem_cons_of_mem _ h⟩
  · exact (List.perm_insertionSort _ _).nodup_iff.mpr (List.nodup_dedup _)
  · exact List.sorted_insertionSort _ _
  · intro e
    rw [(List.perm_insertionSort edgeLe (collectEdges g)).mem_iff]
    unfold collectEdges
    rw [List.mem_dedup, List.mem_flatMap]
    constructor
    · rintro ⟨p, hp, hx⟩
      rcases List.mem_map.mp hx with ⟨d, hd, hde⟩
      refine ⟨p, hp, ?_, ?_⟩
      · rw [← hde]
      · rw [← hde]; exact hd
    · rintro ⟨p, hp, h1, h2⟩
      refine ⟨p, hp, List.mem_map.mpr ⟨e.2, h2, ?_⟩⟩
      rw [← h1]
  · exact (List.perm_insertionSort _ _).nodup_iff.mpr (List.nodup_dedup _)
  · exact List.sorted_insertionSort _ _
  · unfold generate_mermaid_code
    simp only [ite_self]

/-- Witness for C6 at a concrete input: A is declared as a node of the
Scenario 1 diagram because it occurs in the graph. -/
theorem c6_mermaid_nodes_edges_sorted_dedup_witness :
    ("A" : String) ∈ List.insertionSort (fun a b : String => a ≤ b)
      (collectNodes scenRepo) :=
  ((c6_mermaid_nodes_edges_sorted_dedup scenRepo ("A")).1 ("A")).mpr
    ⟨(("A"), ["B", "C"]), by decide, Or.inl rfl⟩
